import Mathlib

/-!
Shallow embedding of the pagerank-system repository (invertedIndex.c,
pagerank.c, searchPagerank.c).  C strings are modelled as lists of bytes
(natural numbers), C doubles as rationals, C int counters as naturals or
integers as appropriate.  Each definition mirrors the corresponding C
function; theorems settle the frozen claims C1 .. C10.
-/

/-- A C string: the list of its bytes (without the terminating NUL). -/
abbrev CStr := List ℕ

/-- Three-way byte-wise string comparison, as C strcmp (the terminating
NUL makes a proper prefix compare less than the longer string). -/
def strcmp : CStr → CStr → Ordering
  | [], [] => Ordering.eq
  | [], _ :: _ => Ordering.lt
  | _ :: _, [] => Ordering.gt
  | a :: as, b :: bs =>
    if a < b then Ordering.lt else if b < a then Ordering.gt else strcmp as bs

/-- The strict order induced by strcmp. -/
def sLt (a b : CStr) : Prop := strcmp a b = Ordering.lt

instance (a b : CStr) : Decidable (sLt a b) := by
  unfold sLt; infer_instance

/-!
Embedding of invertedIndex.c: word normalization, token filtering, the
binary search tree of words with sorted filename lists, and parseFile.
-/

/-- C tolower restricted to ASCII bytes, as applied by normalizeWord. -/
def toLowerB (c : ℕ) : ℕ := if 65 ≤ c ∧ c ≤ 90 then c + 32 else c

/-- The trailing punctuation set stripped by normalizeWord:
period, comma, colon, semicolon, question mark, asterisk. -/
def isPunctB (c : ℕ) : Bool := c = 46 || c = 44 || c = 58 || c = 59 || c = 63 || c = 42

/-- C isalpha for ASCII bytes. -/
def isAlphaB (c : ℕ) : Bool := (65 ≤ c && c ≤ 90) || (97 ≤ c && c ≤ 122)

/-- C isdigit for ASCII bytes. -/
def isDigitB (c : ℕ) : Bool := 48 ≤ c && c ≤ 57

/-- normalizeWord from invertedIndex.c: lowercase every byte, strip the
trailing punctuation bytes, and clear the word to the empty string when the
result is empty or does not start with a letter. -/
def normalizeWord (w : CStr) : CStr :=
  let lw := w.map toLowerB
  let st := (lw.reverse.dropWhile isPunctB).reverse
  if st.length = 0 ∨ isAlphaB (st.headD 0) = false then [] else st

/-- Bytes of the token "#start". -/
def startTokB : CStr := [35, 115, 116, 97, 114, 116]

/-- Bytes of the token "#end". -/
def endTokB : CStr := [35, 101, 110, 100]

/-- Bytes of the token "Section-1". -/
def section1B : CStr := [83, 101, 99, 116, 105, 111, 110, 45, 49]

/-- Bytes of the token "Section-2". -/
def section2B : CStr := [83, 101, 99, 116, 105, 111, 110, 45, 50]

/-- Bytes of the token "url". -/
def urlTokB : CStr := [117, 114, 108]

/-- The token filter inlined in parseFile: a raw token is skipped when its
first bytes are "#start" or "#end", when it equals "Section-1" or
"Section-2", or when it starts with "url" followed by a digit. -/
def skipWord (w : CStr) : Bool :=
  w.take 6 = startTokB || w.take 4 = endTokB || w = section1B || w = section2B ||
    (w.take 3 = urlTokB && isDigitB (w.getD 3 0))

/-- The binary search tree of invertedIndex.c: each node holds a word and
its list of filenames. -/
inductive TreeNode where
  | leaf : TreeNode
  | node : CStr → List CStr → TreeNode → TreeNode → TreeNode

/-- addFilename from invertedIndex.c: insert a filename into the sorted
filename list, doing nothing when it is already present. -/
def addFilename : List CStr → CStr → List CStr
  | [], f => [f]
  | c :: rest, f =>
    match strcmp c f with
    | Ordering.lt => c :: addFilename rest f
    | Ordering.eq => c :: rest
    | Ordering.gt => f :: c :: rest

/-- insertWord from invertedIndex.c: binary-search-tree insertion keyed by
strcmp; an existing word gets the filename added to its list. -/
def insertWord : TreeNode → CStr → CStr → TreeNode
  | TreeNode.leaf, w, f => TreeNode.node w [f] TreeNode.leaf TreeNode.leaf
  | TreeNode.node rw fs l r, w, f =>
    match strcmp w rw with
    | Ordering.lt => TreeNode.node rw fs (insertWord l w f) r
    | Ordering.gt => TreeNode.node rw fs l (insertWord r w f)
    | Ordering.eq => TreeNode.node rw (addFilename fs f) l r

/-- printInvertedIndex from invertedIndex.c as its observable output: the
in-order list of (word, filename list) lines. -/
def printInvertedIndex : TreeNode → List (CStr × List CStr)
  | TreeNode.leaf => []
  | TreeNode.node w fs l r => printInvertedIndex l ++ (w, fs) :: printInvertedIndex r

/-- parseFile from invertedIndex.c, over the whitespace-separated tokens of
the document file: skip filtered tokens, normalize the rest, and insert
every nonempty normalized word with the document name. -/
def parseFile (filename : CStr) (tokens : List CStr) (root : TreeNode) : TreeNode :=
  tokens.foldl (fun t w =>
    if skipWord w then t
    else
      let n := normalizeWord w
      if 0 < n.length then insertWord t n filename else t) root

/-- The words of a tree, in in-order. -/
def keys (t : TreeNode) : List CStr := (printInvertedIndex t).map Prod.fst

/-- The search-tree order invariant of insertWord. -/
def Ordered : TreeNode → Prop
  | TreeNode.leaf => True
  | TreeNode.node w _ l r =>
      (∀ x ∈ keys l, sLt x w) ∧ (∀ y ∈ keys r, sLt w y) ∧ Ordered l ∧ Ordered r

/-- Every filename list stored in the tree is strictly sorted. -/
def FilesOrdered (t : TreeNode) : Prop :=
  ∀ p ∈ printInvertedIndex t, List.Pairwise sLt p.2

/-- The index built by a sequence of (word, filename) insertions into an
initially empty tree, as performed by main and parseFile of
invertedIndex.c. -/
def buildIndex (ops : List (CStr × CStr)) : TreeNode :=
  ops.foldl (fun t p => insertWord t p.1 p.2) TreeNode.leaf

/-- A concrete insertion sequence with a repeated (word, filename) pair. -/
def opsW : List (CStr × CStr) := [([98], [117]), ([97], [118]), ([98], [117])]

/-!
Embedding of searchPagerank.c: the word entries of the parsed inverted
index, the pagerank list records, and findMatchingURLs (claim C5).
-/

/-- A parsed line of invertedIndex.txt: a word and its URL list. -/
structure WordEntry where
  word : CStr
  urls : List CStr
deriving DecidableEq

/-- A record of pagerankList.txt as held by searchPagerank.c: URL,
match counter and pagerank score. -/
structure URLRec where
  url : CStr
  matchCount : ℕ
  pageRank : ℚ
deriving DecidableEq

/-- The innermost loop of findMatchingURLs: increment the match counter of
every pagerank record whose URL equals the given one. -/
def bumpMatches (prl : List URLRec) (u : CStr) : List URLRec :=
  prl.map (fun r => if r.url = u then { r with matchCount := r.matchCount + 1 } else r)

/-- The loop over a matching word entry's URLs in findMatchingURLs. -/
def processEntry (prl : List URLRec) (urls : List CStr) : List URLRec :=
  urls.foldl bumpMatches prl

/-- The loop over all word entries for one search term in
findMatchingURLs. -/
def processTerm (wordEntries : List WordEntry) (prl : List URLRec) (term : CStr) :
    List URLRec :=
  wordEntries.foldl (fun acc e => if e.word = term then processEntry acc e.urls else acc) prl

/-- findMatchingURLs from searchPagerank.c: count term matches over the
pagerank records, then keep the records with a positive match count. -/
def findMatchingURLs (wordEntries : List WordEntry) (prl : List URLRec)
    (searchTerms : List CStr) : List URLRec :=
  (searchTerms.foldl (processTerm wordEntries) prl).filter (fun r => 0 < r.matchCount)

/-- The URL list the index associates with a term (empty when absent). -/
def lookupDocs (wordEntries : List WordEntry) (t : CStr) : List CStr :=
  match wordEntries.find? (fun e => decide (e.word = t)) with
  | some e => e.urls
  | none => []

/-!
Embedding of pagerank.c: URL-file parsing (processSection1), collection
reading, and the iterative PageRank computation.
-/

/-- The strtok delimiters used by processSection1: space and newline. -/
def isDelimB (c : ℕ) : Bool := c = 32 || c = 10

/-- One step of whitespace tokenization (building tokens right to left). -/
def tokenizeStep (c : ℕ) (acc : List CStr × CStr) : List CStr × CStr :=
  if isDelimB c then ((if acc.2 = [] then acc.1 else acc.2 :: acc.1), [])
  else (acc.1, c :: acc.2)

/-- strtok of a line on space and newline: the list of nonempty tokens. -/
def tokenize (l : CStr) : List CStr :=
  let r := l.foldr tokenizeStep ([], [])
  if r.2 = [] then r.1 else r.2 :: r.1

/-- findPageIndex from pagerank.c, scanning URLs from a running index. -/
def findPageIndexAux : List CStr → CStr → ℤ → ℤ
  | [], _, _ => -1
  | u :: rest, url, i =>
    if strcmp u url = Ordering.eq then i else findPageIndexAux rest url (i + 1)

/-- findPageIndex from pagerank.c: index of the first URL equal to the
token, or -1 when absent. -/
def findPageIndex (urls : List CStr) (url : CStr) : ℤ := findPageIndexAux urls url 0

/-- The link state of one page: its adjacency row and out-degree, as
mutated by processSection1. -/
structure PageLinks where
  links : ℕ → Bool
  outDegree : ℕ

/-- A page's link state after readCollection's initialization: no links,
out-degree zero. -/
def initPageLinks : PageLinks := { links := fun _ => false, outDegree := 0 }

/-- The token body of processSection1: resolve the token against the URL
table; when it names a known page other than page i, set the adjacency bit
and increment the out-degree (once per occurrence). -/
def addLink (urls : List CStr) (i : ℕ) (st : PageLinks) (tok : CStr) : PageLinks :=
  let linkedIndex := findPageIndex urls tok
  if linkedIndex ≠ -1 ∧ linkedIndex ≠ (i : ℤ) then
    { links := Function.update st.links linkedIndex.toNat true,
      outDegree := st.outDegree + 1 }
  else st

/-- Bytes of the line "#start Section-1" followed by newline. -/
def startLineB : CStr := startTokB ++ 32 :: section1B ++ [10]

/-- Bytes of the line "#end Section-1" followed by newline. -/
def endLineB : CStr := endTokB ++ 32 :: section1B ++ [10]

/-- processSection1 from pagerank.c over the lines of a URL file: track
whether the cursor is inside Section-1 and add a link for every token of
every line read there. -/
def processSection1 (urls : List CStr) (i : ℕ) :
    List CStr → Bool → PageLinks → PageLinks
  | [], _, st => st
  | line :: rest, inSection1, st =>
    if line = startLineB then processSection1 urls i rest true st
    else if line = endLineB then processSection1 urls i rest false st
    else if inSection1 then
      processSection1 urls i rest inSection1 ((tokenize line).foldl (addLink urls i) st)
    else processSection1 urls i rest inSection1 st

/-- The URL-reading loop of readCollection from pagerank.c: take manifest
tokens while fewer than maxPages have been stored, then stop. -/
def readCollection : List CStr → ℕ → List CStr
  | _, 0 => []
  | [], _ => []
  | t :: rest, n + 1 => t :: readCollection rest n

/-- The link graph over which calculatePageRank runs: page count,
adjacency (link j i means page j links to page i) and out-degrees. -/
structure PRGraph where
  N : ℕ
  link : ℕ → ℕ → Bool
  outDegree : ℕ → ℕ

/-- The inner sum of calculateNewRanks for page i: every page j with its
adjacency bit to i set contributes prev j divided by its out-degree, or
divided by N when its out-degree is zero. -/
def incomingSum (g : PRGraph) (prevPR : ℕ → ℚ) (i : ℕ) : ℚ :=
  ∑ j ∈ Finset.range g.N,
    (if g.link j i then
      (if g.outDegree j ≠ 0 then prevPR j / (g.outDegree j : ℚ)
       else prevPR j / (g.N : ℚ))
     else 0)

/-- calculateNewRanks from pagerank.c: the synchronous update of all
scores from the previous snapshot. -/
def calculateNewRanks (g : PRGraph) (prevPR : ℕ → ℚ) (d : ℚ) : ℕ → ℚ :=
  fun i => (1 - d) / (g.N : ℚ) + d * incomingSum g prevPR i

/-- computePageRankDiff from pagerank.c: total absolute score movement. -/
def computePageRankDiff (g : PRGraph) (newPR prevPR : ℕ → ℚ) : ℚ :=
  ∑ i ∈ Finset.range g.N, |newPR i - prevPR i|

/-- The observable state of calculatePageRank at loop exit: final scores,
the iteration counter, and the last diff. -/
structure PRResult where
  scores : ℕ → ℚ
  iterations : ℤ
  diff : ℚ

/-- The do-while loop of calculatePageRank.  The loop body always runs
once; fuel counts the remaining passes the iteration bound still permits
(maxIterations - iteration - 1 at entry), making the C loop condition
iteration < maxIterations structural: fuel reaches zero exactly when the
incremented counter has reached maxIterations. -/
def prLoop (g : PRGraph) (d diffPR : ℚ) (maxIterations : ℤ) :
    ℕ → (ℕ → ℚ) → ℤ → PRResult
  | fuel, prevPR, iteration =>
    let next := calculateNewRanks g prevPR d
    let diff := computePageRankDiff g next prevPR
    let it := iteration + 1
    match fuel with
    | 0 => ⟨next, it, diff⟩
    | fuel + 1 =>
      if it < maxIterations ∧ diffPR ≤ diff then
        prLoop g d diffPR maxIterations fuel next it
      else ⟨next, it, diff⟩

/-- The initial scores set by readCollection: 1/N for every page. -/
def initialRanks (g : PRGraph) : ℕ → ℚ := fun _ => 1 / (g.N : ℚ)

/-- calculatePageRank from pagerank.c, started on the initial 1/N scores
with the iteration counter at zero. -/
def calculatePageRank (g : PRGraph) (d diffPR : ℚ) (maxIterations : ℤ) : PRResult :=
  prLoop g d diffPR maxIterations (maxIterations - 1).toNat (initialRanks g) 0

/-- A concrete two-page cycle graph (each page links to the other). -/
def gW2 : PRGraph :=
  { N := 2,
    link := fun j i => (j == 0 && i == 1) || (j == 1 && i == 0),
    outDegree := fun _ => 1 }

/-- The two-page collection url0, url1 of the failing input. -/
def urlsD : List CStr := [[117, 114, 108, 48], [117, 114, 108, 49]]

/-- Lines of url0.txt: Section-1 contains the single reference url1. -/
def fileD0 : List CStr := [startLineB, [117, 114, 108, 49, 10], endLineB]

/-- Lines of url1.txt: an empty Section-1 (url1 is dangling). -/
def fileD1 : List CStr := [startLineB, endLineB]

/-- Page url0's link state after graph construction. -/
def pageD0 : PageLinks := processSection1 urlsD 0 fileD0 false initPageLinks

/-- Page url1's link state after graph construction. -/
def pageD1 : PageLinks := processSection1 urlsD 1 fileD1 false initPageLinks

/-- The constructed graph with dangling page url1. -/
def gD : PRGraph :=
  { N := 2,
    link := fun j i =>
      if j = 0 then pageD0.links i else if j = 1 then pageD1.links i else false,
    outDegree := fun j =>
      if j = 0 then pageD0.outDegree else if j = 1 then pageD1.outDegree else 0 }

/-- Lines of a url0.txt whose Section-1 references url1 twice. -/
def fileDup : List CStr :=
  [startLineB, [117, 114, 108, 49, 32, 117, 114, 108, 49, 10], endLineB]

/-- Page url0's link state when its link section repeats url1. -/
def pageDup : PageLinks := processSection1 urlsD 0 fileDup false initPageLinks

theorem strcmp_self (a : CStr) : strcmp a a = Ordering.eq := by
  induction a with
  | nil => rfl
  | cons x xs ih => simp [strcmp, ih]

theorem eq_of_strcmp_eq : ∀ {a b : CStr}, strcmp a b = Ordering.eq → a = b
  | [], [], _ => rfl
  | [], _ :: _, h => by simp [strcmp] at h
  | _ :: _, [], h => by simp [strcmp] at h
  | a :: as, b :: bs, h => by
    by_cases hab : a < b
    · simp [strcmp, hab] at h
    · by_cases hba : b < a
      · simp [strcmp, hab, hba] at h
      · have hab' : a = b := Nat.le_antisymm (Nat.le_of_not_lt hba) (Nat.le_of_not_lt hab)
        have h' : strcmp as bs = Ordering.eq := by simpa [strcmp, hab, hba] using h
        rw [hab', eq_of_strcmp_eq h']

theorem strcmp_gt_iff_lt : ∀ {a b : CStr}, strcmp a b = Ordering.gt ↔ strcmp b a = Ordering.lt
  | [], [] => by simp [strcmp]
  | [], _ :: _ => by simp [strcmp]
  | _ :: _, [] => by simp [strcmp]
  | a :: as, b :: bs => by
    by_cases hab : a < b
    · simp [strcmp, hab, Nat.lt_asymm hab, Nat.ne_of_lt hab]
    · by_cases hba : b < a
      · simp [strcmp, hab, hba]
      · simp [strcmp, hab, hba, strcmp_gt_iff_lt (a := as) (b := bs)]

theorem sLt_trans : ∀ {a b c : CStr}, sLt a b → sLt b c → sLt a c
  | [], _ :: _, _ :: _, _, _ => by simp [sLt, strcmp]
  | [], [], _, h, _ => by simp [sLt, strcmp] at h
  | [], _ :: _, [], _, h => by simp [sLt, strcmp] at h
  | _ :: _, [], _, h, _ => by simp [sLt, strcmp] at h
  | _ :: _, _ :: _, [], _, h => by simp [sLt, strcmp] at h
  | a :: as, b :: bs, c :: cs, hab, hbc => by
    simp only [sLt, strcmp] at hab hbc ⊢
    by_cases h1 : a < b
    · by_cases h2 : b < c
      · simp [Nat.lt_trans h1 h2]
      · by_cases h3 : c < b
        · simp [strcmp, h2, h3] at hbc
        · have : b = c := Nat.le_antisymm (Nat.le_of_not_lt h3) (Nat.le_of_not_lt h2)
          subst this; simp [h1]
    · by_cases h1' : b < a
      · simp [h1, h1'] at hab
      · have : a = b := Nat.le_antisymm (Nat.le_of_not_lt h1') (Nat.le_of_not_lt h1)
        subst this
        by_cases h2 : a < c
        · simp [h2]
        · by_cases h3 : c < a
          · simp [h2, h3] at hbc
          · have : a = c := Nat.le_antisymm (Nat.le_of_not_lt h3) (Nat.le_of_not_lt h2)
            subst this
            simp only [Nat.lt_irrefl, if_false] at hab hbc ⊢
            exact sLt_trans (a := as) hab hbc

theorem sLt_irrefl (a : CStr) : ¬ sLt a a := by
  simp [sLt, strcmp_self]

theorem sLt_asymm {a b : CStr} (h : sLt a b) : ¬ sLt b a := by
  intro h'
  exact sLt_irrefl a (sLt_trans h h')

theorem sLt_ne {a b : CStr} (h : sLt a b) : a ≠ b := by
  rintro rfl
  exact sLt_irrefl a h

theorem sLt_of_strcmp_gt {a b : CStr} (h : strcmp a b = Ordering.gt) : sLt b a :=
  strcmp_gt_iff_lt.mp h

/-!
Claim C9: idempotence of normalizeWord.
-/

theorem toLowerB_idem (c : ℕ) : toLowerB (toLowerB c) = toLowerB c := by
  unfold toLowerB
  split
  · split <;> omega
  · rfl

theorem mem_normalized_fixed {w : CStr} {c : ℕ}
    (h : c ∈ ((w.map toLowerB).reverse.dropWhile isPunctB).reverse) :
    toLowerB c = c := by
  rw [List.mem_reverse] at h
  have h2 : c ∈ (w.map toLowerB).reverse := (List.dropWhile_sublist isPunctB).subset h
  rw [List.mem_reverse, List.mem_map] at h2
  obtain ⟨a, _, rfl⟩ := h2
  exact toLowerB_idem a

/-- Claim C9: applying normalizeWord twice yields the same result as
applying it once; the composite of lowercasing, trailing-punctuation
stripping and first-letter rejection is idempotent on every input token. -/
theorem normalizeWord_idempotent (w : CStr) :
    normalizeWord (normalizeWord w) = normalizeWord w := by
  by_cases hcond : ((w.map toLowerB).reverse.dropWhile isPunctB).reverse.length = 0 ∨
      isAlphaB (((w.map toLowerB).reverse.dropWhile isPunctB).reverse.headD 0) = false
  · have h1 : normalizeWord w = [] := by
      simp only [normalizeWord]
      exact if_pos hcond
    rw [h1]
    rfl
  · set st := ((w.map toLowerB).reverse.dropWhile isPunctB).reverse with hst
    have h1 : normalizeWord w = st := by
      simp only [normalizeWord]
      exact if_neg hcond
    rw [h1]
    have hmap : st.map toLowerB = st := by
      have := List.map_congr_left (l := st) (f := toLowerB) (g := id)
        (fun c hc => mem_normalized_fixed (hst ▸ hc))
      simpa using this
    have hrev : st.reverse.dropWhile isPunctB = st.reverse := by
      rw [hst, List.reverse_reverse]
      exact List.dropWhile_idempotent _ _
    simp only [normalizeWord, hmap, hrev, List.reverse_reverse]
    exact if_neg hcond

/-!
Binary-search-tree invariants for the inverted index (claims C6, C7).
-/

theorem keys_leaf : keys TreeNode.leaf = [] := rfl

theorem keys_node (w : CStr) (fs : List CStr) (l r : TreeNode) :
    keys (TreeNode.node w fs l r) = keys l ++ w :: keys r := by
  simp [keys, printInvertedIndex]

theorem mem_keys_insertWord {t : TreeNode} {w f x : CStr} :
    x ∈ keys (insertWord t w f) ↔ x ∈ keys t ∨ x = w := by
  induction t with
  | leaf => simp [insertWord, keys_node, keys_leaf]
  | node rw fs l r ihl ihr =>
    cases hc : strcmp w rw with
    | lt =>
      simp only [insertWord, hc, keys_node, List.mem_append, List.mem_cons, ihl]
      tauto
    | gt =>
      simp only [insertWord, hc, keys_node, List.mem_append, List.mem_cons, ihr]
      tauto
    | eq =>
      have hw : w = rw := eq_of_strcmp_eq hc
      subst hw
      simp only [insertWord, hc, keys_node, List.mem_append, List.mem_cons]
      tauto

theorem ordered_insertWord {t : TreeNode} (w f : CStr) (ht : Ordered t) :
    Ordered (insertWord t w f) := by
  induction t with
  | leaf =>
    simp [insertWord, Ordered, keys_leaf]
  | node rw fs l r ihl ihr =>
    obtain ⟨hl, hr, hol, hor⟩ := ht
    cases hc : strcmp w rw with
    | lt =>
      simp only [insertWord, hc]
      refine ⟨?_, hr, ihl hol, hor⟩
      intro x hx
      rcases mem_keys_insertWord.mp hx with h | rfl
      · exact hl x h
      · exact hc
    | gt =>
      simp only [insertWord, hc]
      refine ⟨hl, ?_, hol, ihr hor⟩
      intro y hy
      rcases mem_keys_insertWord.mp hy with h | rfl
      · exact hr y h
      · exact sLt_of_strcmp_gt hc
    | eq =>
      simp only [insertWord, hc]
      exact ⟨hl, hr, hol, hor⟩

theorem pairwise_keys_of_ordered {t : TreeNode} (ht : Ordered t) :
    List.Pairwise sLt (keys t) := by
  induction t with
  | leaf => simp [keys_leaf]
  | node rw fs l r ihl ihr =>
    obtain ⟨hl, hr, hol, hor⟩ := ht
    rw [keys_node, List.pairwise_append]
    refine ⟨ihl hol, ?_, ?_⟩
    · rw [List.pairwise_cons]
      exact ⟨hr, ihr hor⟩
    · intro x hx y hy
      rcases List.mem_cons.mp hy with rfl | hy'
      · exact hl x hx
      · exact sLt_trans (hl x hx) (hr y hy')

theorem mem_addFilename {fs : List CStr} {f x : CStr} :
    x ∈ addFilename fs f ↔ x ∈ fs ∨ x = f := by
  induction fs with
  | nil => simp [addFilename]
  | cons c rest ih =>
    cases hc : strcmp c f with
    | lt =>
      simp only [addFilename, hc, List.mem_cons, ih]
      tauto
    | eq =>
      have : c = f := eq_of_strcmp_eq hc
      subst this
      simp only [addFilename, hc, List.mem_cons]
      tauto
    | gt =>
      simp only [addFilename, hc, List.mem_cons]
      tauto

theorem pairwise_addFilename {fs : List CStr} (f : CStr)
    (h : List.Pairwise sLt fs) : List.Pairwise sLt (addFilename fs f) := by
  induction fs with
  | nil => simp [addFilename]
  | cons c rest ih =>
    rw [List.pairwise_cons] at h
    obtain ⟨hhead, htail⟩ := h
    cases hc : strcmp c f with
    | lt =>
      simp only [addFilename, hc, List.pairwise_cons]
      refine ⟨?_, ih htail⟩
      intro y hy
      rcases mem_addFilename.mp hy with h | rfl
      · exact hhead y h
      · exact hc
    | eq =>
      simp only [addFilename, hc, List.pairwise_cons]
      exact ⟨hhead, htail⟩
    | gt =>
      have hfc : sLt f c := sLt_of_strcmp_gt hc
      simp only [addFilename, hc, List.pairwise_cons]
      refine ⟨?_, hhead, htail⟩
      intro y hy
      rcases List.mem_cons.mp hy with rfl | hy'
      · exact hfc
      · exact sLt_trans hfc (hhead y hy')

theorem addFilename_eq_of_mem {fs : List CStr} {f : CStr}
    (hmem : f ∈ fs) (h : List.Pairwise sLt fs) : addFilename fs f = fs := by
  induction fs with
  | nil => cases hmem
  | cons c rest ih =>
    rw [List.pairwise_cons] at h
    obtain ⟨hhead, htail⟩ := h
    cases hc : strcmp c f with
    | lt =>
      have hne : f ≠ c := fun h' => sLt_irrefl c (h' ▸ hc)
      have : f ∈ rest := by
        rcases List.mem_cons.mp hmem with h' | h'
        · exact absurd h' hne
        · exact h'
      simp only [addFilename, hc]
      rw [ih this htail]
    | eq =>
      simp [addFilename, hc]
    | gt =>
      have hfc : sLt f c := sLt_of_strcmp_gt hc
      rcases List.mem_cons.mp hmem with rfl | h'
      · exact absurd hfc (sLt_irrefl f)
      · exact absurd hfc (sLt_asymm (hhead f h'))

theorem filesOrdered_leaf : FilesOrdered TreeNode.leaf := by
  intro p hp
  simp [printInvertedIndex] at hp

theorem filesOrdered_node {w : CStr} {fs : List CStr} {l r : TreeNode} :
    FilesOrdered (TreeNode.node w fs l r) ↔
      FilesOrdered l ∧ List.Pairwise sLt fs ∧ FilesOrdered r := by
  constructor
  · intro h
    refine ⟨?_, ?_, ?_⟩
    · intro p hp
      exact h p (by simp [printInvertedIndex, hp])
    · exact h (w, fs) (by simp [printInvertedIndex])
    · intro p hp
      exact h p (by simp [printInvertedIndex, hp])
  · rintro ⟨h1, h2, h3⟩ p hp
    simp only [printInvertedIndex, List.mem_append, List.mem_cons] at hp
    rcases hp with hp | hp | hp
    · exact h1 p hp
    · subst hp; exact h2
    · exact h3 p hp

theorem filesOrdered_insertWord {t : TreeNode} (w f : CStr)
    (ht : FilesOrdered t) : FilesOrdered (insertWord t w f) := by
  induction t with
  | leaf =>
    intro p hp
    simp only [insertWord, printInvertedIndex, List.mem_append, List.mem_cons] at hp
    rcases hp with hp | hp | hp
    · simp [printInvertedIndex] at hp
    · subst hp; simp
    · simp [printInvertedIndex] at hp
  | node rw fs l r ihl ihr =>
    rw [filesOrdered_node] at ht
    obtain ⟨h1, h2, h3⟩ := ht
    cases hc : strcmp w rw with
    | lt =>
      simp only [insertWord, hc]
      exact filesOrdered_node.mpr ⟨ihl h1, h2, h3⟩
    | gt =>
      simp only [insertWord, hc]
      exact filesOrdered_node.mpr ⟨h1, h2, ihr h3⟩
    | eq =>
      simp only [insertWord, hc]
      exact filesOrdered_node.mpr ⟨h1, pairwise_addFilename f h2, h3⟩

theorem fst_mem_keys {t : TreeNode} {p : CStr × List CStr}
    (hp : p ∈ printInvertedIndex t) : p.1 ∈ keys t := by
  simp only [keys, List.mem_map]
  exact ⟨p, hp, rfl⟩

theorem insertWord_eq_of_mem {t : TreeNode} {w f : CStr}
    (ht : Ordered t) (hf : FilesOrdered t)
    (hmem : ∃ p ∈ printInvertedIndex t, p.1 = w ∧ f ∈ p.2) :
    insertWord t w f = t := by
  induction t with
  | leaf =>
    obtain ⟨p, hp, _⟩ := hmem
    simp [printInvertedIndex] at hp
  | node rw fs l r ihl ihr =>
    obtain ⟨hl, hr, hol, hor⟩ := ht
    rw [filesOrdered_node] at hf
    obtain ⟨hf1, hf2, hf3⟩ := hf
    obtain ⟨p, hp, hpw, hpf⟩ := hmem
    simp only [printInvertedIndex, List.mem_append, List.mem_cons] at hp
    cases hc : strcmp w rw with
    | lt =>
      have hwrw : sLt w rw := hc
      rcases hp with hp | hp | hp
      · simp only [insertWord, hc]
        rw [ihl hol hf1 ⟨p, hp, hpw, hpf⟩]
      · have : p.1 = rw := by rw [hp]
        rw [hpw] at this
        exact absurd this (sLt_ne hwrw)
      · have : sLt rw p.1 := hr p.1 (fst_mem_keys hp)
        rw [hpw] at this
        exact absurd hwrw (sLt_asymm this)
    | gt =>
      have hrww : sLt rw w := sLt_of_strcmp_gt hc
      rcases hp with hp | hp | hp
      · have : sLt p.1 rw := hl p.1 (fst_mem_keys hp)
        rw [hpw] at this
        exact absurd hrww (sLt_asymm this)
      · have : p.1 = rw := by rw [hp]
        rw [hpw] at this
        exact absurd this.symm (sLt_ne hrww)
      · simp only [insertWord, hc]
        rw [ihr hor hf3 ⟨p, hp, hpw, hpf⟩]
    | eq =>
      have hwrw : w = rw := eq_of_strcmp_eq hc
      rcases hp with hp | hp | hp
      · have : sLt p.1 rw := hl p.1 (fst_mem_keys hp)
        rw [hpw, hwrw] at this
        exact absurd this (sLt_irrefl rw)
      · have hps : p = (rw, fs) := hp
        have hffs : f ∈ fs := by
          have := hpf
          rw [hps] at this
          exact this
        simp only [insertWord, hc]
        rw [addFilename_eq_of_mem hffs hf2]
      · have : sLt rw p.1 := hr p.1 (fst_mem_keys hp)
        rw [hpw, hwrw] at this
        exact absurd this (sLt_irrefl rw)

theorem buildIndex_invariant (ops : List (CStr × CStr)) :
    Ordered (buildIndex ops) ∧ FilesOrdered (buildIndex ops) := by
  suffices h : ∀ t, Ordered t → FilesOrdered t →
      Ordered (ops.foldl (fun t p => insertWord t p.1 p.2) t) ∧
      FilesOrdered (ops.foldl (fun t p => insertWord t p.1 p.2) t) by
    exact h TreeNode.leaf trivial filesOrdered_leaf
  induction ops with
  | nil => exact fun t h1 h2 => ⟨h1, h2⟩
  | cons p rest ih =>
    intro t h1 h2
    exact ih _ (ordered_insertWord p.1 p.2 h1) (filesOrdered_insertWord p.1 p.2 h2)

/-- Claim C6: for every insertion sequence, the persisted inverted index
lists words in strictly ascending strcmp order, every filename list is
strictly ascending and duplicate-free, and inserting an already-present
(word, filename) pair leaves the tree unchanged. -/
theorem inverted_index_sorted_c6 (ops : List (CStr × CStr)) :
    List.Pairwise sLt (keys (buildIndex ops)) ∧
    (∀ p ∈ printInvertedIndex (buildIndex ops), List.Pairwise sLt p.2 ∧ p.2.Nodup) ∧
    (∀ w f, (∃ p ∈ printInvertedIndex (buildIndex ops), p.1 = w ∧ f ∈ p.2) →
      insertWord (buildIndex ops) w f = buildIndex ops) := by
  obtain ⟨ho, hf⟩ := buildIndex_invariant ops
  refine ⟨pairwise_keys_of_ordered ho, ?_, ?_⟩
  · intro p hp
    have h := hf p hp
    exact ⟨h, h.imp (fun hxy => sLt_ne hxy)⟩
  · intro w f hmem
    exact insertWord_eq_of_mem ho hf hmem

/-- Witness for claim C6 at a concrete insertion sequence. -/
theorem inverted_index_sorted_c6_witness :
    List.Pairwise sLt (keys (buildIndex opsW)) ∧
    (∀ p ∈ printInvertedIndex (buildIndex opsW), List.Pairwise sLt p.2 ∧ p.2.Nodup) ∧
    (∀ w f, (∃ p ∈ printInvertedIndex (buildIndex opsW), p.1 = w ∧ f ∈ p.2) →
      insertWord (buildIndex opsW) w f = buildIndex opsW) :=
  inverted_index_sorted_c6 opsW

theorem mem_keys_parseFile {filename : CStr} (tokens : List CStr) :
    ∀ (t : TreeNode) (x : CStr),
      x ∈ keys (parseFile filename tokens t) ↔
        x ∈ keys t ∨
          ∃ tok ∈ tokens, skipWord tok = false ∧
            0 < (normalizeWord tok).length ∧ normalizeWord tok = x := by
  induction tokens with
  | nil =>
    intro t x
    simp [parseFile]
  | cons tok rest ih =>
    intro t x
    have hstep : parseFile filename (tok :: rest) t =
        parseFile filename rest
          (if skipWord tok then t
           else if 0 < (normalizeWord tok).length
             then insertWord t (normalizeWord tok) filename else t) := by
      simp only [parseFile, List.foldl_cons]
    rw [hstep]
    cases hskip : skipWord tok with
    | true =>
      rw [if_pos rfl]
      rw [ih t x]
      simp only [List.mem_cons]
      constructor
      · rintro (h | ⟨tk, htk, hsk, hlen, hn⟩)
        · exact Or.inl h
        · exact Or.inr ⟨tk, Or.inr htk, hsk, hlen, hn⟩
      · rintro (h | ⟨tk, (rfl | htk), hsk, hlen, hn⟩)
        · exact Or.inl h
        · rw [hskip] at hsk; cases hsk
        · exact Or.inr ⟨tk, htk, hsk, hlen, hn⟩
    | false =>
      rw [if_neg (by simp)]
      by_cases hlen : 0 < (normalizeWord tok).length
      · rw [if_pos hlen, ih _ x, mem_keys_insertWord]
        simp only [List.mem_cons]
        constructor
        · rintro ((h | rfl) | ⟨tk, htk, hsk, hl, hn⟩)
          · exact Or.inl h
          · exact Or.inr ⟨tok, Or.inl rfl, hskip, hlen, rfl⟩
          · exact Or.inr ⟨tk, Or.inr htk, hsk, hl, hn⟩
        · rintro (h | ⟨tk, (rfl | htk), hsk, hl, hn⟩)
          · exact Or.inl (Or.inl h)
          · exact Or.inl (Or.inr hn.symm)
          · exact Or.inr ⟨tk, htk, hsk, hl, hn⟩
      · rw [if_neg hlen, ih t x]
        simp only [List.mem_cons]
        constructor
        · rintro (h | ⟨tk, htk, hsk, hl, hn⟩)
          · exact Or.inl h
          · exact Or.inr ⟨tk, Or.inr htk, hsk, hl, hn⟩
        · rintro (h | ⟨tk, (rfl | htk), hsk, hl, hn⟩)
          · exact Or.inl h
          · exact absurd hl hlen
          · exact Or.inr ⟨tk, htk, hsk, hl, hn⟩

/-- Claim C7 (amended): the index filter is shape-based and section-blind;
a word is a term of the index built from a document's token stream exactly
when some raw token survives the marker/url-digit filter and normalizes to
that nonempty word, regardless of which section the token came from. -/
theorem parseFile_terms_c7 (filename : CStr) (tokens : List CStr) (x : CStr) :
    x ∈ keys (parseFile filename tokens TreeNode.leaf) ↔
      ∃ tok ∈ tokens, skipWord tok = false ∧
        0 < (normalizeWord tok).length ∧ normalizeWord tok = x := by
  rw [mem_keys_parseFile tokens TreeNode.leaf x]
  simp [keys_leaf]

/-- Counterexample to claim C7 as stated: with document vocabulary
d / alpha, the link-section reference token alpha (lying between the
start and end markers of Section-1) is not filtered and becomes an index
term mapped to the containing document d. -/
theorem parseFile_c7_counterexample :
    ([97, 108, 112, 104, 97], [[100]]) ∈ printInvertedIndex
      (parseFile [100] [startTokB, section1B, [97, 108, 112, 104, 97], endTokB, section1B]
        TreeNode.leaf) := by
  decide

theorem countP_eq_of_nodup {l : List CStr} (h : l.Nodup) (u : CStr) :
    l.countP (fun x => decide (x = u)) = if u ∈ l then 1 else 0 := by
  induction l with
  | nil => simp
  | cons a l ih =>
    rw [List.nodup_cons] at h
    obtain ⟨ha, hl⟩ := h
    rw [List.countP_cons, ih hl]
    by_cases hau : a = u
    · subst hau
      simp [ha]
    · simp [hau, Ne.symm hau]

theorem processEntry_eq (urls : List CStr) :
    ∀ prl : List URLRec, processEntry prl urls =
      prl.map (fun r =>
        { r with matchCount := r.matchCount + urls.countP (fun x => decide (x = r.url)) }) := by
  induction urls with
  | nil =>
    intro prl
    simp [processEntry]
  | cons u urls ih =>
    intro prl
    have h1 : processEntry prl (u :: urls) = processEntry (bumpMatches prl u) urls := by
      simp [processEntry]
    rw [h1, ih, bumpMatches, List.map_map]
    apply List.map_congr_left
    intro r _
    by_cases hu : r.url = u
    · have hc : (u :: urls).countP (fun x => decide (x = r.url)) =
          urls.countP (fun x => decide (x = r.url)) + 1 := by
        rw [List.countP_cons]
        simp [hu]
      simp only [Function.comp, if_pos hu, hc]
      congr 1
      omega
    · have hc : (u :: urls).countP (fun x => decide (x = r.url)) =
          urls.countP (fun x => decide (x = r.url)) := by
        rw [List.countP_cons]
        simp [Ne.symm hu]
      simp only [Function.comp, if_neg hu, hc]

theorem processTerm_eq (wordEntries : List WordEntry) (term : CStr)
    (hw : (wordEntries.map (fun e => e.word)).Nodup) :
    ∀ prl : List URLRec, processTerm wordEntries prl term =
      prl.map (fun r =>
        { r with matchCount := r.matchCount +
            (lookupDocs wordEntries term).countP (fun x => decide (x = r.url)) }) := by
  induction wordEntries with
  | nil =>
    intro prl
    simp [processTerm, lookupDocs]
  | cons e rest ih =>
    rw [List.map_cons, List.nodup_cons] at hw
    obtain ⟨hnotin, hrest⟩ := hw
    intro prl
    have h1 : processTerm (e :: rest) prl term =
        processTerm rest (if e.word = term then processEntry prl e.urls else prl) term := by
      simp [processTerm]
    rw [h1]
    by_cases he : e.word = term
    · have hlook : lookupDocs (e :: rest) term = e.urls := by
        simp [lookupDocs, List.find?_cons, he]
      have hnone : lookupDocs rest term = [] := by
        have hn : rest.find? (fun x => decide (x.word = term)) = none := by
          rw [List.find?_eq_none]
          intro x hx
          simp only [decide_eq_true_eq]
          intro hxw
          exact hnotin (by rw [he, ← hxw]; exact List.mem_map_of_mem _ hx)
        simp [lookupDocs, hn]
      rw [if_pos he, ih hrest, processEntry_eq, List.map_map, hlook, hnone]
      apply List.map_congr_left
      intro r _
      simp [Function.comp]
    · have hlook : lookupDocs (e :: rest) term = lookupDocs rest term := by
        simp [lookupDocs, List.find?_cons, he]
      rw [if_neg he, ih hrest, hlook]

theorem foldTerms_eq (wordEntries : List WordEntry)
    (hw : (wordEntries.map (fun e => e.word)).Nodup)
    (hu : ∀ e ∈ wordEntries, e.urls.Nodup) :
    ∀ (terms : List CStr) (prl : List URLRec),
      terms.foldl (processTerm wordEntries) prl =
        prl.map (fun r =>
          { r with matchCount := r.matchCount +
              terms.countP (fun t => decide (r.url ∈ lookupDocs wordEntries t)) }) := by
  intro terms
  induction terms with
  | nil =>
    intro prl
    simp
  | cons t ts ih =>
    intro prl
    have hnodup : (lookupDocs wordEntries t).Nodup := by
      unfold lookupDocs
      cases hfind : wordEntries.find? (fun e => decide (e.word = t)) with
      | none => simp
      | some e => exact hu e (List.mem_of_find?_eq_some hfind)
    rw [List.foldl_cons, processTerm_eq wordEntries t hw, ih, List.map_map]
    apply List.map_congr_left
    intro r _
    have hcount : (lookupDocs wordEntries t).countP (fun x => decide (x = r.url)) =
        if r.url ∈ lookupDocs wordEntries t then 1 else 0 :=
      countP_eq_of_nodup hnodup r.url
    simp only [Function.comp, List.countP_cons, hcount]
    by_cases hm : r.url ∈ lookupDocs wordEntries t
    · simp [hm]
      omega
    · simp [hm]

/-- Claim C5 (amended): with a well-formed index (distinct words,
duplicate-free URL lists) and match counters starting at zero, a
document's final match count equals the number of query-term occurrences
(command-line positions) whose document set contains it — a repeated query
term is counted once per occurrence, not once per distinct term. -/
theorem findMatchingURLs_counts_c5 (wordEntries : List WordEntry)
    (prl : List URLRec) (terms : List CStr)
    (hw : (wordEntries.map (fun e => e.word)).Nodup)
    (hu : ∀ e ∈ wordEntries, e.urls.Nodup)
    (h0 : ∀ r ∈ prl, r.matchCount = 0) :
    ∀ r ∈ findMatchingURLs wordEntries prl terms,
      r.matchCount = terms.countP (fun t => decide (r.url ∈ lookupDocs wordEntries t)) ∧
        0 < r.matchCount := by
  intro r hr
  unfold findMatchingURLs at hr
  rw [List.mem_filter] at hr
  obtain ⟨hmem, hpos⟩ := hr
  rw [foldTerms_eq wordEntries hw hu terms prl, List.mem_map] at hmem
  obtain ⟨r0, hr0, rfl⟩ := hmem
  simp only [decide_eq_true_eq] at hpos
  refine ⟨?_, by simpa using hpos⟩
  simp [h0 r0 hr0]

/-- Counterexample to claim C5 as stated: supplying the query term c twice
doubles the match count of document a, so a duplicated command-line term
does increase match counts. -/
theorem findMatchingURLs_c5_counterexample :
    (findMatchingURLs [⟨[99], [[97]]⟩] [⟨[97], 0, (1 : ℚ)/2⟩] [[99], [99]]).map
        (fun r => r.matchCount) = [2] ∧
      (([[99], [99]] : List CStr).dedup).countP
        (fun t => decide (([97] : CStr) ∈ lookupDocs [⟨[99], [[97]]⟩] t)) = 1 := by
  constructor
  · rfl
  · decide

/-- Witness for claim C5 at a concrete query and its concrete result
record. -/
theorem findMatchingURLs_counts_c5_witness :
    (⟨[97], 1, (1 : ℚ)/2⟩ : URLRec).matchCount =
        ([[99]] : List CStr).countP
          (fun t => decide ((⟨[97], 1, (1 : ℚ)/2⟩ : URLRec).url ∈
            lookupDocs [⟨[99], [[97]]⟩] t)) ∧
      0 < (⟨[97], 1, (1 : ℚ)/2⟩ : URLRec).matchCount :=
  findMatchingURLs_counts_c5 [⟨[99], [[97]]⟩] [⟨[97], 0, (1 : ℚ)/2⟩] [[99]]
    (by decide) (by decide) (by decide) ⟨[97], 1, (1 : ℚ)/2⟩
    (List.mem_cons_self _ _)

theorem prLoop_exit (g : PRGraph) (d t : ℚ) (m : ℤ) :
    ∀ (fuel : ℕ) (s : ℕ → ℚ) (it : ℤ), (m - 1 - it).toNat = fuel → it < m →
      (prLoop g d t m fuel s it).iterations ≤ m ∧
        ((prLoop g d t m fuel s it).diff < t ∨ (prLoop g d t m fuel s it).iterations = m) := by
  intro fuel
  induction fuel with
  | zero =>
    intro s it hf hit
    have hm : it + 1 = m := by omega
    refine ⟨?_, Or.inr ?_⟩
    · show (prLoop g d t m 0 s it).iterations ≤ m
      simp only [prLoop]
      omega
    · show (prLoop g d t m 0 s it).iterations = m
      simp only [prLoop]
      omega
  | succ f ih =>
    intro s it hf hit
    by_cases hc : it + 1 < m ∧ t ≤ computePageRankDiff g (calculateNewRanks g s d) s
    · have heq : prLoop g d t m (f + 1) s it =
          prLoop g d t m f (calculateNewRanks g s d) (it + 1) := by
        simp only [prLoop]
        rw [if_pos hc]
      rw [heq]
      exact ih _ _ (by omega) hc.1
    · have heq : prLoop g d t m (f + 1) s it =
          ⟨calculateNewRanks g s d, it + 1,
            computePageRankDiff g (calculateNewRanks g s d) s⟩ := by
        simp only [prLoop]
        rw [if_neg hc]
      rw [heq]
      refine ⟨?_, ?_⟩
      · show it + 1 ≤ m
        omega
      rcases Classical.em (it + 1 < m) with h | h
      · left
        have hd : ¬ t ≤ computePageRankDiff g (calculateNewRanks g s d) s :=
          fun hle => hc ⟨h, hle⟩
        exact lt_of_not_le hd
      · right
        show it + 1 = m
        omega

/-- Claim C4: with maxIterations at least 1 and a nonnegative threshold,
calculatePageRank performs at most maxIterations passes, and at exit
either the final diff is strictly below the threshold or exactly
maxIterations passes have elapsed. -/
theorem calculatePageRank_terminates_c4 (g : PRGraph) (d t : ℚ) (m : ℤ)
    (hm : 1 ≤ m) (_h : 0 ≤ t) :
    (calculatePageRank g d t m).iterations ≤ m ∧
      ((calculatePageRank g d t m).diff < t ∨
        (calculatePageRank g d t m).iterations = m) := by
  unfold calculatePageRank
  exact prLoop_exit g d t m _ _ 0 (by omega) (by omega)

/-- Witness for claim C4 at a concrete graph and parameters. -/
theorem calculatePageRank_terminates_c4_witness :
    (calculatePageRank gW2 ((1 : ℚ)/2) 0 1).iterations ≤ 1 ∧
      ((calculatePageRank gW2 ((1 : ℚ)/2) 0 1).diff < 0 ∨
        (calculatePageRank gW2 ((1 : ℚ)/2) 0 1).iterations = 1) :=
  calculatePageRank_terminates_c4 gW2 ((1 : ℚ)/2) 0 1 (by norm_num) (le_refl 0)

theorem prLoop_iterations_lb (g : PRGraph) (d t : ℚ) (m : ℤ) :
    ∀ (fuel : ℕ) (s : ℕ → ℚ) (it : ℤ),
      it + 1 ≤ (prLoop g d t m fuel s it).iterations := by
  intro fuel
  induction fuel with
  | zero =>
    intro s it
    simp only [prLoop]
    omega
  | succ f ih =>
    intro s it
    by_cases hc : it + 1 < m ∧ t ≤ computePageRankDiff g (calculateNewRanks g s d) s
    · have heq : prLoop g d t m (f + 1) s it =
          prLoop g d t m f (calculateNewRanks g s d) (it + 1) := by
        simp only [prLoop]
        rw [if_pos hc]
      rw [heq]
      have := ih (calculateNewRanks g s d) (it + 1)
      omega
    · have heq : prLoop g d t m (f + 1) s it =
          ⟨calculateNewRanks g s d, it + 1,
            computePageRankDiff g (calculateNewRanks g s d) s⟩ := by
        simp only [prLoop]
        rw [if_neg hc]
      rw [heq]

/-- Claim C10: the loop body of calculatePageRank precedes the loop test,
so at least one full synchronous update always happens; in particular with
maxIterations at most 1 (including zero and negative values) the final
scores are exactly one calculateNewRanks update of the initial scores. -/
theorem calculatePageRank_first_update_c10 (g : PRGraph) (d t : ℚ) (m : ℤ) :
    1 ≤ (calculatePageRank g d t m).iterations ∧
      (m ≤ 1 → (calculatePageRank g d t m).scores =
        calculateNewRanks g (initialRanks g) d) := by
  constructor
  · have h := prLoop_iterations_lb g d t m (m - 1).toNat (initialRanks g) 0
    unfold calculatePageRank
    omega
  · intro hm
    have hfuel : (m - 1).toNat = 0 := by omega
    unfold calculatePageRank
    rw [hfuel]
    rfl

/-- Witness for claim C10 at a concrete graph with maxIterations zero. -/
theorem calculatePageRank_first_update_c10_witness :
    1 ≤ (calculatePageRank gW2 ((1 : ℚ)/2) 0 0).iterations ∧
      ((0 : ℤ) ≤ 1 → (calculatePageRank gW2 ((1 : ℚ)/2) 0 0).scores =
        calculateNewRanks gW2 (initialRanks gW2) ((1 : ℚ)/2)) :=
  calculatePageRank_first_update_c10 gW2 ((1 : ℚ)/2) 0 0

/-- Claim C1 evaluated at the failing input: page url1 is dangling
(out-degree 0), yet its contribution to url0's incoming sum is 0 rather
than the claimed prev[1]/N = 1/4 — the prev[j]/N branch of
calculateNewRanks is guarded by links[j][i], which a dangling page never
sets, so dangling rank mass is dropped, not redistributed. -/
theorem dangling_contributes_nothing_c1 :
    gD.link 0 1 = true ∧ gD.outDegree 1 = 0 ∧
      incomingSum gD (fun _ => (1 : ℚ)/2) 0 = 0 ∧
      ((1 : ℚ)/2) / (gD.N : ℚ) = 1/4 ∧ ((1 : ℚ)/4) ≠ 0 := by
  have hN : gD.N = 2 := rfl
  have hl00 : gD.link 0 0 = false := by decide
  have hl10 : gD.link 1 0 = false := by decide
  refine ⟨by decide, by decide, ?_, ?_, by norm_num⟩
  · rw [incomingSum, hN, Finset.sum_range_succ, Finset.sum_range_one]
    simp [hl00, hl10]
  · rw [hN]
    norm_num

/-- Claim C2 evaluated at the failing input: on the dangling graph the
score total after the first iteration is 3/4, not 1 — the dropped
dangling mass breaks PageRank conservation. -/
theorem conservation_fails_c2 :
    (∑ i ∈ Finset.range gD.N, (calculatePageRank gD ((1 : ℚ)/2) 0 1).scores i) = 3/4 ∧
      ((3 : ℚ)/4) ≠ 1 := by
  have hN : gD.N = 2 := rfl
  have hl00 : gD.link 0 0 = false := by decide
  have hl10 : gD.link 1 0 = false := by decide
  have hl01 : gD.link 0 1 = true := by decide
  have hl11 : gD.link 1 1 = false := by decide
  have ho0 : gD.outDegree 0 = 1 := by decide
  have hs : (calculatePageRank gD ((1 : ℚ)/2) 0 1).scores =
      calculateNewRanks gD (initialRanks gD) ((1 : ℚ)/2) := rfl
  constructor
  · rw [hs, hN, Finset.sum_range_succ, Finset.sum_range_one]
    simp only [calculateNewRanks, incomingSum, initialRanks, hN,
      Finset.sum_range_succ, Finset.sum_range_one, hl00, hl10, hl01, hl11, ho0]
    norm_num
  · norm_num

/-- Claim C3 evaluated at the failing input: a duplicated reference makes
processSection1 count out-degree 2 while only one distinct adjacency bit
is set, so out-degree disagrees with the adjacency row it later divides. -/
theorem outDegree_overcounts_c3 :
    pageDup.outDegree = 2 ∧
      ((Finset.range 2).filter (fun j => pageDup.links j = true)).card = 1 := by
  decide

theorem readCollection_eq_take :
    ∀ (tokens : List CStr) (maxPages : ℕ),
      readCollection tokens maxPages = tokens.take maxPages := by
  intro tokens
  induction tokens with
  | nil =>
    intro m
    cases m <;> rfl
  | cons t rest ih =>
    intro m
    cases m with
    | zero => rfl
    | succ n =>
      simp only [readCollection, List.take_succ_cons]
      rw [ih n]

/-- Claim C8 (amended): a manifest longer than the page bound is silently
truncated — readCollection returns exactly the first maxPages names and
signals no error; there is no diagnostic or nonzero exit for this case. -/
theorem readCollection_truncates_c8 (tokens : List CStr) (maxPages : ℕ) :
    readCollection tokens maxPages = tokens.take maxPages ∧
      (readCollection tokens maxPages).length = min maxPages tokens.length := by
  refine ⟨readCollection_eq_take tokens maxPages, ?_⟩
  rw [readCollection_eq_take]
  simp [List.length_take]

/-- Counterexample to claim C8 as stated: a 1001-name manifest against the
MAX_URLS = 1000 bound yields a normal result holding the first 1000 names;
nothing fails and the 1001st name is silently dropped. -/
theorem readCollection_c8_counterexample :
    (readCollection (List.replicate 1001 ([117] : CStr)) 1000).length = 1000 ∧
      readCollection (List.replicate 1001 ([117] : CStr)) 1000 =
        List.replicate 1000 ([117] : CStr) := by
  have hmin : min 1000 1001 = 1000 := by norm_num
  constructor
  · rw [readCollection_eq_take, List.take_replicate, hmin, List.length_replicate]
  · rw [readCollection_eq_take, List.take_replicate, hmin]
